import Mathlib
/-!
Verification of the PicoROM comms channel (src/firmware/comms.h, comms.cpp).

The C++ code is shallowly embedded: the `FIFO<N>` template becomes `Fifo`
with operations parameterised by the capacity `N`; `uint32_t`/`uint8_t`
arithmetic is modelled on `Nat` with explicit `% 2^32` / `% 256`; the
interrupt handler, session controller and channel pump become pure state
transformers; the nondeterministic environment of `comms_update` (interrupts
firing and the wall clock advancing while the pump spins) is supplied as an
explicit schedule argument; transport sends (`pl_send_payload`) are collected
into an output list of chunks.
-/

/-- 2^32, the modulus of `uint32_t` arithmetic. -/
def U32 : Nat := 4294967296

/-- 2^8, the modulus of `uint8_t` arithmetic. -/
def M8 : Nat := 256

/-- Embedding of `FIFO<N>` from src/firmware/comms.h: `head` and `tail` are
`uint32_t` counters (stored reduced mod 2^32), `data` is the backing byte
array, modelled as a total function indexed mod `N` exactly as the C++ code
indexes it. The C++ leaves `data` uninitialised; the model initialises it to
zero. -/
structure Fifo where
  head : Nat
  tail : Nat
  data : Nat → Nat

/-- `FIFO()` constructor: `head = tail = 0`. -/
def Fifo.init : Fifo := { head := 0, tail := 0, data := fun _ => 0 }

/-- `clear()`: `tail = head`. -/
def Fifo.clear (f : Fifo) : Fifo := { f with tail := f.head }

/-- `count()`: `head - tail` in `uint32_t` arithmetic. -/
def Fifo.count (f : Fifo) : Nat := (f.head + U32 - f.tail) % U32

/-- `is_full()`: `count() == N`. -/
def Fifo.is_full (N : Nat) (f : Fifo) : Bool := f.count == N

/-- `is_empty()`: `count() == 0`. -/
def Fifo.is_empty (f : Fifo) : Bool := f.count == 0

/-- `push(v)`: `data[head % N] = v; head++`. Values are bytes (`uint8_t`),
hence the `% 256` on the stored value. -/
def Fifo.push (N : Nat) (v : Nat) (f : Fifo) : Fifo :=
  { head := (f.head + 1) % U32
    tail := f.tail
    data := Function.update f.data (f.head % N) (v % M8) }

/-- `pop()`: returns `data[tail % N]` and does `tail++`. -/
def Fifo.pop (N : Nat) (f : Fifo) : Nat × Fifo :=
  (f.data (f.tail % N), { f with tail := (f.tail + 1) % U32 })

/-- `peek()`: `data[tail % N]`. -/
def Fifo.peek (N : Nat) (f : Fifo) : Nat := f.data (f.tail % N)

/-- States of a capacity-`N` ring reachable from the initial state by
sequences of `push`, `pop`, `clear` in which `push` is never applied to a
full ring and `pop` never to an empty ring (the discipline the spec demands
of callers: "`pop` is undefined if empty; callers must check `count()`
first", and pushes are guarded by the protocol). -/
inductive ReachGuarded (N : Nat) : Fifo → Prop where
  | init : ReachGuarded N Fifo.init
  | push (v : Nat) {f : Fifo} : ReachGuarded N f → f.is_full N = false →
      ReachGuarded N (f.push N v)
  | pop {f : Fifo} : ReachGuarded N f → f.is_empty = false →
      ReachGuarded N (f.pop N).2
  | clear {f : Fifo} : ReachGuarded N f → ReachGuarded N f.clear

/-- A single ring operation, for stating laws about operation sequences. -/
inductive RingOp where
  | push (v : Nat)
  | pop
deriving DecidableEq

/-- Run a sequence of ring operations on a capacity-`N` ring, collecting the
values returned by the pops in order. -/
def runOps (N : Nat) : List RingOp → Fifo → Fifo × List Nat
  | [], f => (f, [])
  | RingOp.push v :: tr, f => runOps N tr (f.push N v)
  | RingOp.pop :: tr, f =>
    let r := f.pop N
    let rest := runOps N tr r.2
    (rest.1, r.1 :: rest.2)

/-- The values pushed by a trace, in order. -/
def pushedVals : List RingOp → List Nat
  | [] => []
  | RingOp.push v :: tr => v % M8 :: pushedVals tr
  | RingOp.pop :: tr => pushedVals tr

/-- The number of pops in a trace. -/
def popCount : List RingOp → Nat
  | [] => 0
  | RingOp.push _ :: tr => popCount tr
  | RingOp.pop :: tr => 1 + popCount tr

/-- A trace is in-capacity for capacity `N` starting from abstract pending
queue `q`: every push happens with fewer than `N` bytes pending and every
pop with at least one byte pending. -/
def inCap (N : Nat) : List RingOp → List Nat → Bool
  | [], _ => true
  | RingOp.push v :: tr, q => decide (q.length < N) && inCap N tr (q ++ [v % M8])
  | RingOp.pop :: tr, q => decide (q ≠ []) && inCap N tr q.tail

/-- Refinement invariant tying a concrete ring state to the abstract list of
pending bytes: the pending bytes sit at `data[(tail + i) % N]` in order, and
`head` is `tail + length` in `uint32_t` arithmetic. -/
def RingInv (N : Nat) (f : Fifo) (q : List Nat) : Prop :=
  f.tail < U32 ∧ f.head = (f.tail + q.length) % U32 ∧ q.length ≤ N ∧
    ∀ i, (h : i < q.length) → f.data ((f.tail + i) % N) = q.get ⟨i, h⟩

/-- Push a whole list of bytes, oldest first (no intervening pops). -/
def pushAll (N : Nat) (vs : List Nat) (f : Fifo) : Fifo :=
  vs.foldl (fun g v => g.push N v) f

/-- Pop `n` times in succession, collecting the returned bytes in order. -/
def popN (N : Nat) : Nat → Fifo → List Nat × Fifo
  | 0, f => ([], f)
  | n + 1, f =>
    let r := f.pop N
    let rest := popN N n r.2
    (r.1 :: rest.1, rest.2)

/-- The comms ring capacity: both rings in src/firmware/comms.cpp are
`FIFO<32>`. -/
def CN : Nat := 32

/-- `MAX_PKT_PAYLOAD` from src/firmware/pico_link.h. -/
def MAX_PKT_PAYLOAD : Nat := 30

/-- `ADDR_MASK` from src/firmware/system.h: `(1 << N_ADDR_PINS) - 1` with
`N_ADDR_PINS = 18` (BOARD_32P_TCA; the 28P board uses 16, which yields the
same results for every address considered here). -/
def ADDR_MASK : Nat := 262143

/-- Embedding of `CommsRegisters` (src/firmware/comms.cpp, lines 20-44): the
fields the firmware itself reads or writes. `magic` is the first four bytes
of the 1024-byte block (`static_assert(sizeof(CommsRegisters) == 1024)`);
`out_area` is address-encoded only and carries no state. All scalar fields
are `uint32_t`, stored reduced mod 2^32. -/
structure CommsRegisters where
  magic : List Nat
  active : Nat
  pending : Nat
  in_seq : Nat
  out_seq : Nat
  debug1 : Nat
  debug2 : Nat
  in_byte : Nat
deriving DecidableEq

/-- The comms module state: the two `FIFO<32>` globals, the four deferred
reconciliation counters (`uint8_t` in this revision, stored reduced mod 256),
the register-block pointer `comms_reg` (`none` models the null pointer — no
active session) and `comms_reg_addr`. -/
structure Comms where
  out_fifo : Fifo
  in_fifo : Fifo
  out_deferred_req : Nat
  out_deferred_ack : Nat
  in_empty_req : Nat
  in_empty_ack : Nat
  reg : Option CommsRegisters
  reg_addr : Nat

/-- Initial state: globals zero-initialised, `comms_reg = nullptr`. -/
def Comms.start : Comms :=
  { out_fifo := Fifo.init, in_fifo := Fifo.init,
    out_deferred_req := 0, out_deferred_ack := 0,
    in_empty_req := 0, in_empty_ack := 0,
    reg := none, reg_addr := 0 }

/-- `comms_irq_handler` (src/firmware/comms.cpp, lines 49-87), as a function
of the address word read from the detect PIO. `comms_reg->debug2 = addr`
happens first; with no session that C++ statement dereferences a null
pointer, modelled here as a no-op. If bit 8 of `addr` is set the access is an
outbound signal carrying byte `addr & 0xff`; note the code tests
`is_full()` AFTER the push. If `addr == 0` the access is an inbound mailbox
read: the front byte is popped unconditionally, then, with a session active,
either the empty case (bump `in_empty_req`, clear `pending`) or the
non-empty case (refresh `in_byte`/`in_seq`) applies. -/
def comms_irq_handler (addr : Nat) (s : Comms) : Comms :=
  let s := { s with reg := s.reg.map (fun r => { r with debug2 := addr % U32 }) }
  if addr &&& 256 != 0 then
    match s.reg with
    | none => s
    | some r =>
      let f := s.out_fifo.push CN (addr &&& 255)
      if f.is_full CN then
        { s with out_fifo := f,
                 out_deferred_req := (s.out_deferred_req + 1) % M8 }
      else
        { s with out_fifo := f,
                 reg := some { r with out_seq := (r.out_seq + 1) % U32 } }
  else if addr == 0 then
    let f := (s.in_fifo.pop CN).2
    match s.reg with
    | none => { s with in_fifo := f }
    | some r =>
      let r := { r with debug1 := (r.debug1 + 1) % U32 }
      if f.is_empty then
        { s with in_fifo := f,
                 in_empty_req := (s.in_empty_req + 1) % M8,
                 reg := some { r with pending := 0 } }
      else
        { s with in_fifo := f,
                 reg := some { r with in_byte := f.peek CN,
                                      in_seq := (r.in_seq + 1) % U32 } }
  else s

/-- `comms_begin_session` (src/firmware/comms.cpp, lines 204-223): clears
both rings, zeroes the outbound deferral pair, sets `in_empty_ack = 0` and
`in_empty_req = 1`, computes `comms_reg_addr = addr & ADDR_MASK & ~0x3ff`,
places the register block there and initialises it (`active`, `pending`,
`in_seq`, `out_seq` zeroed, magic set to "PICO"), then sets `active = 1`
last. Fields the code does not write (`in_byte`, `debug1`, `debug2`) retain
whatever bytes the ROM image held there; the model takes them as 0. -/
def comms_begin_session (addr : Nat) (s : Comms) : Comms :=
  { out_fifo := s.out_fifo.clear, in_fifo := s.in_fifo.clear,
    out_deferred_ack := 0, out_deferred_req := 0,
    in_empty_ack := 0, in_empty_req := 1,
    reg_addr := addr &&& ADDR_MASK &&& 4294966272,
    reg := some { magic := [80, 73, 67, 79], active := 1, pending := 0,
                  in_seq := 0, out_seq := 0,
                  debug1 := 0, debug2 := 0, in_byte := 0 } }

/-- `comms_end_session` (src/firmware/comms.cpp, lines 225-233): no-op when
no session; otherwise clears `active` and nulls `comms_reg`. -/
def comms_end_session (s : Comms) : Comms :=
  match s.reg with
  | none => s
  | some _ => { s with reg := none }

/-- The `while (comms_out_deferred_ack != comms_out_deferred_req)` loop at
the top of `update_comms_out` (src/firmware/comms.cpp, lines 185-189): the
loop body runs once per unit of the `uint8_t` gap `req - ack`, bumping
`out_seq` each time, and exits with `ack == req`. -/
def reconcile_out (s : Comms) : Comms :=
  let gap := (s.out_deferred_req + M8 - s.out_deferred_ack) % M8
  { s with out_deferred_ack := s.out_deferred_req,
           reg := s.reg.map (fun r => { r with out_seq := (r.out_seq + gap) % U32 }) }

/-- The `while (comms_out_fifo.count() > 0)` drain loop of `update_comms_out`
(lines 191-201): pop into the local chunk buffer, flushing a transport packet
(`pl_send_payload`) whenever the buffer reaches `max_outcount` bytes. Each
pop decrements `count()` by exactly one, so running the loop with fuel equal
to the entry count is the loop's exact behaviour. Sends are collected in
order in `sends`. -/
def drain_loop (N : Nat) : Nat → Fifo → List Nat → List (List Nat) →
    Fifo × List Nat × List (List Nat)
  | 0, f, buf, sends => (f, buf, sends)
  | n + 1, f, buf, sends =>
    let r := f.pop N
    let buf' := buf ++ [r.1]
    if buf'.length == MAX_PKT_PAYLOAD then
      drain_loop N n r.2 [] (sends ++ [buf'])
    else
      drain_loop N n r.2 buf' sends

/-- `update_comms_out` (src/firmware/comms.cpp, lines 183-202). -/
def update_comms_out (s : Comms) (buf : List Nat) (sends : List (List Nat)) :
    Comms × List Nat × List (List Nat) :=
  let s1 := reconcile_out s
  let r := drain_loop CN s1.out_fifo.count s1.out_fifo buf sends
  ({ s1 with out_fifo := r.1 }, r.2.1, r.2.2)

/-- Accumulator threaded through `comms_update`: module state, the local
`outbytes` chunk buffer, and the transport packets sent so far. -/
structure PumpAcc where
  s : Comms
  buf : List Nat
  sends : List (List Nat)

/-- Interrupts delivered while the pump runs: each is one invocation of
`comms_irq_handler` with the given address word. -/
def apply_events (es : List Nat) (s : Comms) : Comms :=
  es.foldl (fun t a => comms_irq_handler a t) s

/-- One schedule entry drives one iteration of the pump's `do { … } while
(comms_in_fifo.is_full())` wait loop: the interrupts that fire before this
iteration's drain, and whether the `absolute_time_diff_us(...) < 0` timeout
check observes the deadline as passed. -/
abbrev PumpSched := List (List Nat × Bool)

/-- Run `update_comms_out` on the accumulator. -/
def pump_drain (a : PumpAcc) : PumpAcc :=
  let r := update_comms_out a.s a.buf a.sends
  ⟨r.1, r.2.1, r.2.2⟩

/-- The admission wait loop for one inbound byte (src/firmware/comms.cpp,
lines 250-257): each iteration drains outbound, then checks the timeout
(returning failure if expired — NOTE: this check precedes the fullness
check), then retries while the inbound ring is full. Returns `none` when the
schedule is exhausted before the loop settles, otherwise
`(timedOut, remaining schedule, accumulator)`. -/
def admit_wait : PumpSched → PumpAcc → Option (Bool × PumpSched × PumpAcc)
  | [], _ => none
  | (es, expired) :: rest, a =>
    let a1 := pump_drain { a with s := apply_events es a.s }
    if expired then some (true, rest, a1)
    else if a1.s.in_fifo.is_full CN then admit_wait rest a1
    else some (false, rest, a1)

/-- `comms_reg->pending = 1` at the top of each admission iteration. -/
def set_pending1 (s : Comms) : Comms :=
  { s with reg := s.reg.map (fun r => { r with pending := 1 }) }

/-- The admission tail for one byte (src/firmware/comms.cpp, lines 259-267):
push the byte into the inbound ring, then, if `in_empty_ack !=
in_empty_req`, refresh the mailbox (`in_byte = peek()`, `in_seq++`) and
retire one deferral unit (`in_empty_ack++`). Note this is an `if`, not a
loop: at most one unit is reconciled per admitted byte. -/
def admit_byte_post (b : Nat) (s : Comms) : Comms :=
  let s := { s with in_fifo := s.in_fifo.push CN b }
  if s.in_empty_ack != s.in_empty_req then
    { s with reg := s.reg.map (fun r =>
        { r with in_byte := s.in_fifo.peek CN % U32,
                 in_seq := (r.in_seq + 1) % U32 }),
             in_empty_ack := (s.in_empty_ack + 1) % M8 }
  else s

/-- The `while (incount < len)` admission loop of `comms_update` (lines
247-268). Returns `none` if the schedule is exhausted, otherwise `(completed
normally?, accumulator)`; `(false, a)` is the early `return false`. -/
def admit_all : List Nat → PumpSched → PumpAcc → Option (Bool × PumpAcc)
  | [], _, a => some (true, a)
  | b :: bs, sched, a =>
    match admit_wait sched { a with s := set_pending1 a.s } with
    | none => none
    | some (true, _, a1) => some (false, a1)
    | some (false, rest, a1) =>
      admit_all bs rest { a1 with s := admit_byte_post b a1.s }

/-- `comms_update(data, len, timeout_ms)` (src/firmware/comms.cpp, lines
235-276), with the environment (interrupts and clock readings) supplied by
`sched`. Returns `none` when the schedule does not determine termination,
otherwise `some (return value, final state, transport packets sent)`. With
no session active it returns `true` immediately, sending nothing. On the
success path any non-empty partial chunk is flushed at the end; on the
timeout path it is discarded. -/
def comms_update (data : List Nat) (sched : PumpSched) (s : Comms) :
    Option (Bool × Comms × List (List Nat)) :=
  match s.reg with
  | none => some (true, s, [])
  | some _ =>
    let a0 := pump_drain ⟨s, [], []⟩
    match admit_all data sched a0 with
    | none => none
    | some (false, a) => some (false, a.s, a.sends)
    | some (true, a) =>
      if a.buf.length > 0 then some (true, a.s, a.sends ++ [a.buf])
      else some (true, a.s, a.sends)

/-- Projection: the boolean result of a terminating `comms_update` run. -/
def resOf (o : Option (Bool × Comms × List (List Nat))) : Bool :=
  (o.map (fun x => x.1)).getD true

/-- Projection: the final state of a terminating `comms_update` run. -/
def stateOf (o : Option (Bool × Comms × List (List Nat))) : Comms :=
  (o.map (fun x => x.2.1)).getD Comms.start

/-- Projection: the transport packets of a terminating `comms_update` run. -/
def sendsOf (o : Option (Bool × Comms × List (List Nat))) : List (List Nat) :=
  (o.map (fun x => x.2.2)).getD []

/-- Register-block field reads (0 when no session is active). -/
def pendingOf (s : Comms) : Nat := ((s.reg.map CommsRegisters.pending).getD 0)

def inSeqOf (s : Comms) : Nat := ((s.reg.map CommsRegisters.in_seq).getD 0)

def inByteOf (s : Comms) : Nat := ((s.reg.map CommsRegisters.in_byte).getD 0)

def outSeqOf (s : Comms) : Nat := ((s.reg.map CommsRegisters.out_seq).getD 0)

def magicOf (s : Comms) : List Nat := ((s.reg.map CommsRegisters.magic).getD [])

/-- A mailbox read by the target: the bus serves the current `in_byte` and
`in_seq` values, and the access triggers the inbound-consumed signal
(`comms_irq_handler` with address 0). Returns the pair the target observed
and the state after the handler runs. -/
def mailbox_read (s : Comms) : (Nat × Nat) × Comms :=
  ((inByteOf s, inSeqOf s), comms_irq_handler 0 s)

/-- `n` successive mailbox reads, collecting the observed pairs. -/
def mailbox_reads : Nat → Comms → List (Nat × Nat) × Comms
  | 0, s => ([], s)
  | n + 1, s =>
    let r := mailbox_read s
    let rest := mailbox_reads n r.2
    (r.1 :: rest.1, rest.2)

/-- A session state whose outbound ring is exactly full (`count() = 32`),
for exercising the overwrite path of the outbound signal handler. -/
def fullOutState : Comms :=
  { out_fifo := { head := 32, tail := 0, data := fun _ => 0 },
    in_fifo := Fifo.init,
    out_deferred_req := 5, out_deferred_ack := 5,
    in_empty_req := 0, in_empty_ack := 0,
    reg := some { magic := [80, 73, 67, 79], active := 1, pending := 0,
                  in_seq := 0, out_seq := 9, debug1 := 0, debug2 := 0,
                  in_byte := 0 },
    reg_addr := 4096 }

/-- A benign schedule: `n` wait iterations with no interrupts and the
deadline not yet passed. -/
def quietSched (n : Nat) : PumpSched := List.replicate n ([], false)

/-- A run of `comms_update` that times out right after 30 outbound signals
(byte 0x41 at address 0x141) were drained into one full transport chunk:
the first wait iteration delivers the 30 interrupts, the drain flushes a
full `MAX_PKT_PAYLOAD`-byte packet, and then the timeout check fires. -/
def c9run : Option (Bool × Comms × List (List Nat)) :=
  comms_update [7] [(List.replicate 30 321, true)]
    (comms_begin_session 4660 Comms.start)

theorem U32_pos : 0 < U32 := by decide

theorem Fifo.count_init : Fifo.init.count = 0 := by decide

theorem Fifo.count_clear (f : Fifo) : f.clear.count = 0 := by
  unfold Fifo.count Fifo.clear
  simp [Nat.add_sub_cancel_left, Nat.mod_self]

theorem Fifo.count_lt (f : Fifo) : f.count < U32 :=
  Nat.mod_lt _ U32_pos

theorem Fifo.count_push (N v : Nat) (f : Fifo) (ht : f.tail < U32) :
    (f.push N v).count = (f.count + 1) % U32 := by
  unfold Fifo.count Fifo.push U32 at *
  simp only
  omega

theorem Fifo.count_pop (N : Nat) (f : Fifo) (ht : f.tail < U32) :
    (f.pop N).2.count = (f.count + U32 - 1) % U32 := by
  unfold Fifo.count Fifo.pop U32 at *
  simp only
  omega

theorem Fifo.count_pop_of_pos (N : Nat) (f : Fifo) (ht : f.tail < U32)
    (hc : 0 < f.count) : (f.pop N).2.count = f.count - 1 := by
  rw [Fifo.count_pop N f ht]
  have h := f.count_lt
  unfold U32 at *
  omega

theorem reachGuarded_bounds {N : Nat} (hN : N < U32) {f : Fifo}
    (h : ReachGuarded N f) : f.head < U32 ∧ f.tail < U32 ∧ f.count ≤ N := by
  induction h with
  | init => refine ⟨by decide, by decide, ?_⟩; rw [Fifo.count_init]; omega
  | push v hr hg ih =>
    rename_i g
    have hfull : g.count ≠ N := by
      simpa [Fifo.is_full] using hg
    refine ⟨Nat.mod_lt _ U32_pos, ih.2.1, ?_⟩
    rw [Fifo.count_push _ _ _ ih.2.1]
    have : g.count + 1 ≤ N := by omega
    rw [Nat.mod_eq_of_lt (by omega)]
    exact this
  | pop hr hg ih =>
    rename_i g
    have hne : g.count ≠ 0 := by
      simpa [Fifo.is_empty] using hg
    refine ⟨ih.1, Nat.mod_lt _ U32_pos, ?_⟩
    rw [Fifo.count_pop_of_pos _ _ ih.2.1 (by omega)]
    omega
  | clear hr ih =>
    refine ⟨ih.1, ih.1, ?_⟩
    rw [Fifo.count_clear]
    omega

theorem ringInv_init (N : Nat) : RingInv N Fifo.init [] := by
  refine ⟨by decide, by decide, by simp, ?_⟩
  intro i h
  simp at h

theorem ringInv_count {N : Nat} (hNU : N < U32) {f : Fifo} {q : List Nat}
    (hI : RingInv N f q) : f.count = q.length := by
  obtain ⟨ht, hh, hlen, _⟩ := hI
  unfold Fifo.count
  rw [hh]
  unfold U32 at *
  omega

theorem ringInv_push {N : Nat} (hdvd : N ∣ U32) (hNU : N < U32)
    {f : Fifo} {q : List Nat} (hI : RingInv N f q) (hroom : q.length < N)
    (v : Nat) : RingInv N (f.push N v) (q ++ [v % M8]) := by
  obtain ⟨ht, hh, hlen, hdata⟩ := hI
  refine ⟨ht, ?_, by simp; omega, ?_⟩
  · show (f.head + 1) % U32 = (f.tail + (q ++ [v % M8]).length) % U32
    rw [hh]
    simp [Nat.mod_add_mod]
    ring_nf
  · intro i hi
    show Function.update f.data (f.head % N) (v % M8) ((f.tail + i) % N) = _
    have hi' : i < q.length + 1 := by simpa using hi
    rcases Nat.lt_or_ge i q.length with hlt | hge
    · -- an old element: the updated slot `head % N` is a different slot
      have hne : (f.tail + i) % N ≠ f.head % N := by
        rw [hh, Nat.mod_mod_of_dvd _ hdvd]
        intro heq
        have hm : i % N = q.length % N :=
          Nat.ModEq.add_left_cancel' f.tail heq
        rw [Nat.mod_eq_of_lt (by omega), Nat.mod_eq_of_lt hroom] at hm
        omega
      rw [Function.update_noteq hne, hdata i hlt]
      have : (q ++ [v % M8]).get ⟨i, hi⟩ = q.get ⟨i, hlt⟩ := by
        simp [List.getElem_append, hlt]
      rw [this]
    · -- the new element, written at slot `head % N`
      have hieq : i = q.length := by omega
      have heq : (f.tail + i) % N = f.head % N := by
        rw [hh, Nat.mod_mod_of_dvd _ hdvd, hieq]
      rw [heq, Function.update_same]
      have : (q ++ [v % M8]).get ⟨i, hi⟩ = v % M8 := by
        subst hieq
        simp
      rw [this]

theorem ringInv_pop {N : Nat} (hdvd : N ∣ U32) {f : Fifo} {x : Nat}
    {q : List Nat} (hI : RingInv N f (x :: q)) :
    (f.pop N).1 = x ∧ RingInv N (f.pop N).2 q := by
  obtain ⟨ht, hh, hlen, hdata⟩ := hI
  constructor
  · show f.data (f.tail % N) = x
    have := hdata 0 (by simp)
    simpa using this
  · refine ⟨Nat.mod_lt _ U32_pos, ?_, by simp at hlen; omega, ?_⟩
    · show f.head = ((f.tail + 1) % U32 + q.length) % U32
      rw [hh]
      simp only [List.length_cons, Nat.mod_add_mod]
      ring_nf
    · intro i hi
      show f.data (((f.tail + 1) % U32 + i) % N) = q.get ⟨i, hi⟩
      have hmod : ((f.tail + 1) % U32 + i) % N = (f.tail + (i + 1)) % N := by
        conv_lhs => rw [Nat.add_mod, Nat.mod_mod_of_dvd _ hdvd, ← Nat.add_mod]
        ring_nf
      rw [hmod]
      have := hdata (i + 1) (by simp; omega)
      simpa using this

theorem runOps_sim {N : Nat} (hdvd : N ∣ U32) (hNU : N < U32) :
    ∀ (tr : List RingOp) (f : Fifo) (q : List Nat), RingInv N f q →
      inCap N tr q = true →
      (runOps N tr f).2 = (q ++ pushedVals tr).take (popCount tr) := by
  intro tr
  induction tr with
  | nil => intro f q _ _; simp [runOps, pushedVals, popCount]
  | cons op tr ih =>
    intro f q hI hcap
    cases op with
    | push v =>
      simp only [inCap, Bool.and_eq_true, decide_eq_true_eq] at hcap
      have hstep := ringInv_push hdvd hNU hI hcap.1 v
      have := ih (f.push N v) (q ++ [v % M8]) hstep hcap.2
      simp only [runOps, pushedVals, popCount]
      rw [this]
      simp
    | pop =>
      simp only [inCap, Bool.and_eq_true, decide_eq_true_eq] at hcap
      obtain ⟨hne, hcap'⟩ := hcap
      obtain ⟨x, q', rfl⟩ : ∃ x q', q = x :: q' := by
        cases q with
        | nil => exact absurd rfl hne
        | cons a b => exact ⟨a, b, rfl⟩
      obtain ⟨hval, hI'⟩ := ringInv_pop hdvd hI
      simp only [runOps, popCount]
      have := ih (f.pop N).2 q' hI' (by simpa using hcap')
      rw [this, hval]
      simp [List.take_cons, pushedVals]

theorem pushAll_tail (N : Nat) : ∀ (vs : List Nat) (f : Fifo),
    (pushAll N vs f).tail = f.tail := by
  intro vs
  induction vs with
  | nil => intro f; rfl
  | cons v vs ih => intro f; simpa [pushAll, Fifo.push] using ih (f.push N v)

theorem pushAll_inv {N : Nat} (hdvd : N ∣ U32) (hNU : N < U32) :
    ∀ (vs : List Nat) (f : Fifo) (q : List Nat), RingInv N f q →
      q.length + vs.length ≤ N →
      RingInv N (pushAll N vs f) (q ++ vs.map (· % M8)) := by
  intro vs
  induction vs with
  | nil => intro f q hI _; simpa [pushAll] using hI
  | cons v vs ih =>
    intro f q hI hroom
    simp only [List.length_cons] at hroom
    have h1 := ringInv_push hdvd hNU hI (by omega) v
    have := ih (f.push N v) (q ++ [v % M8]) h1 (by simp; omega)
    simpa [pushAll, List.append_assoc] using this

theorem popN_vals {N : Nat} (hdvd : N ∣ U32) :
    ∀ (n : Nat) (f : Fifo),
      (popN N n f).1 = (List.range n).map (fun t => f.data ((f.tail + t) % N)) := by
  intro n
  induction n with
  | zero => intro f; simp [popN]
  | succ n ih =>
    intro f
    have hdata : (f.pop N).2.data = f.data := rfl
    have htail : (f.pop N).2.tail = (f.tail + 1) % U32 := rfl
    simp only [popN, ih ((f.pop N).2), hdata, htail]
    rw [List.range_succ_eq_map]
    simp only [List.map_cons, List.map_map]
    congr 1
    apply List.map_congr_left
    intro t _
    simp only [Function.comp_apply]
    congr 1
    conv_lhs => rw [Nat.add_mod, Nat.mod_mod_of_dvd _ hdvd, ← Nat.add_mod]
    congr 1
    omega

/-- One overwrite round: pushing `rest` into a ring that already holds a full
complement `xs'` (with `tail = 0`) overwrites slots `0, 1, …` in order. -/
theorem pushRound {N : Nat} (xs' : List Nat) :
    ∀ (rest done : List Nat) (f : Fifo),
      f.tail = 0 → f.head = N + done.length →
      done.length + rest.length ≤ N →
      N + done.length + rest.length < U32 →
      (∀ j, j < N → f.data j =
        if j < done.length then done.getD j 0 else xs'.getD j 0) →
      (pushAll N rest f).tail = 0 ∧
      (pushAll N rest f).head = N + done.length + rest.length ∧
      (∀ j, j < N → (pushAll N rest f).data j =
        if j < done.length + rest.length then
          (done ++ rest.map (· % M8)).getD j 0
        else xs'.getD j 0) := by
  intro rest
  induction rest with
  | nil =>
    intro done f ht hh _ _ hdata
    refine ⟨by simpa [pushAll] using ht, by simpa [pushAll] using hh, ?_⟩
    intro j hj
    have := hdata j hj
    simpa [pushAll] using this
  | cons v rest ih =>
    intro done f ht hh hroom hbound hdata
    have hdN : done.length < N := by simp at hroom; omega
    have hslot : f.head % N = done.length := by
      rw [hh, Nat.add_mod_left, Nat.mod_eq_of_lt hdN]
    have hstep := ih (done ++ [v % M8]) (f.push N v)
      (by simp [Fifo.push, ht])
      (by
        show (f.head + 1) % U32 = N + (done ++ [v % M8]).length
        rw [hh, Nat.mod_eq_of_lt (by simp at hbound; omega)]
        simp
        omega)
      (by simp at hroom ⊢; omega)
      (by simp at hbound ⊢; omega)
      (by
        intro j hj
        show Function.update f.data (f.head % N) (v % M8) j = _
        rw [hslot]
        rcases Nat.lt_trichotomy j done.length with hlt | heq | hgt
        · rw [Function.update_noteq (by omega), hdata j hj, if_pos hlt,
            if_pos (by simp; omega), List.getD_append _ _ _ _ hlt]
        · subst heq
          rw [Function.update_same, if_pos (by simp),
            List.getD_append_right _ _ _ _ (by omega)]
          simp
        · rw [Function.update_noteq (by omega), hdata j hj,
            if_neg (by omega), if_neg (by simp; omega)])
    have hcollapse : pushAll N (v :: rest) f = pushAll N rest (f.push N v) := rfl
    rw [hcollapse]
    refine ⟨hstep.1, ?_, ?_⟩
    · rw [hstep.2.1]; simp; omega
    · intro j hj
      have := hstep.2.2 j hj
      rw [this]
      simp only [List.length_append, List.length_cons, List.length_nil,
        List.map_cons, List.append_assoc, List.singleton_append]
      congr 2
      omega

/-- After pushing a full complement `xs` and then `k ≤ N` more bytes `ys`
into an empty capacity-`N` ring, slots `0..k-1` hold `ys` and slots
`k..N-1` still hold the corresponding bytes of `xs`. -/
theorem overwrite_state {N k : Nat} (xs ys : List Nat) (hdvd : N ∣ U32)
    (hNU : N + k < U32) (hkN : k ≤ N) (hxs : xs.length = N)
    (hys : ys.length = k) :
    (pushAll N (xs ++ ys) Fifo.init).tail = 0 ∧
    (pushAll N (xs ++ ys) Fifo.init).head = N + k ∧
    (∀ j, j < N → (pushAll N (xs ++ ys) Fifo.init).data j =
      if j < k then (ys.map (· % M8)).getD j 0
      else (xs.map (· % M8)).getD j 0) := by
  have hNU' : N < U32 := by omega
  have hInv : RingInv N (pushAll N xs Fifo.init) (xs.map (· % M8)) := by
    have := pushAll_inv hdvd hNU' xs Fifo.init [] (ringInv_init N)
      (by simp [hxs])
    simpa using this
  have ht1 : (pushAll N xs Fifo.init).tail = 0 := by
    rw [pushAll_tail]; rfl
  have hh1 : (pushAll N xs Fifo.init).head = N := by
    have := hInv.2.1
    rw [ht1] at this
    rw [this]
    simp [hxs, Nat.mod_eq_of_lt hNU']
  have hd1 : ∀ j, j < N → (pushAll N xs Fifo.init).data j =
      (xs.map (· % M8)).getD j 0 := by
    intro j hj
    have hjlen : j < (xs.map (· % M8)).length := by simp [hxs]; omega
    have := hInv.2.2.2 j hjlen
    rw [ht1] at this
    rw [Nat.zero_add, Nat.mod_eq_of_lt hj] at this
    rw [this, List.getD_eq_getElem _ _ hjlen]
    rfl
  have hround := pushRound (xs.map (· % M8)) ys [] (pushAll N xs Fifo.init)
    ht1 (by simpa using hh1) (by simpa [hys] using hkN)
    (by simpa [hys] using hNU) (by simpa using hd1)
  have hsplit : pushAll N (xs ++ ys) Fifo.init =
      pushAll N ys (pushAll N xs Fifo.init) := by
    simp [pushAll, List.foldl_append]
  rw [hsplit]
  simp only [pushAll] at hround ⊢
  refine ⟨hround.1, ?_, ?_⟩
  · rw [hround.2.1]
    simp [hys]
  · intro j hj
    rw [hround.2.2 j hj]
    simp [hys]

/-- C6: For every sequence of pushes and pops on a capacity-`N` ring whose
pending count never exceeds `N` (every push happens with fewer than `N`
bytes pending, every pop with at least one pending), successive pops return
exactly the pushed bytes, in the order they were pushed. Stated for any
power-of-two capacity (`N ∣ 2^32`, which covers the `FIFO<32>`/`FIFO<64>`
instantiations in the firmware). -/
theorem C6_fifo_order_law (N : Nat) (hdvd : N ∣ U32) (hNU : N < U32)
    (tr : List RingOp) (hcap : inCap N tr [] = true) :
    (runOps N tr Fifo.init).2 = (pushedVals tr).take (popCount tr) := by
  have := runOps_sim hdvd hNU tr Fifo.init [] (ringInv_init N) hcap
  simpa using this

/-- Witness for C6 at a concrete trace: push 1, push 2, pop, pop on the
32-byte ring pops [1, 2]. -/
theorem C6_fifo_order_law_witness :
    (runOps 32 [RingOp.push 1, RingOp.push 2, RingOp.pop, RingOp.pop]
      Fifo.init).2 =
      (pushedVals [RingOp.push 1, RingOp.push 2, RingOp.pop, RingOp.pop]).take
        (popCount [RingOp.push 1, RingOp.push 2, RingOp.pop, RingOp.pop]) :=
  C6_fifo_order_law 32 (by decide) (by decide) _ (by decide)

/-- C3 as stated is false: `count()` can exceed `N` in a state reachable by
pushes alone. With `N = 1`, two pushes from the empty ring (the second one
an unguarded push on a full ring) reach `count() = 2 > 1`. -/
theorem C3_count_bound_cex :
    (Fifo.push 1 6 (Fifo.push 1 5 Fifo.init)).count = 2 ∧
      ¬ (Fifo.push 1 6 (Fifo.push 1 5 Fifo.init)).count ≤ 1 := by
  decide

/-- C3 (amended): `count()` always equals the 32-bit difference
`head - tail`, and every state reachable by sequences of push/pop/clear in
which push is never applied to a full ring and pop never to an empty ring
satisfies `count() ≤ N`. (Unguarded pushes can exceed `N`, see the
counterexample.) -/
theorem C3_count_invariant (N : Nat) (hNU : N < U32) :
    (∀ f : Fifo, f.count = (f.head + U32 - f.tail) % U32) ∧
      ∀ f : Fifo, ReachGuarded N f → f.count ≤ N :=
  ⟨fun _ => rfl, fun _ h => (reachGuarded_bounds hNU h).2.2⟩

/-- Witness for C3 at `N = 32` and the guarded-reachable state obtained by
one push. -/
theorem C3_count_invariant_witness :
    (Fifo.push 32 7 Fifo.init).count ≤ 32 :=
  (C3_count_invariant 32 (by decide)).2 _
    (ReachGuarded.push 7 ReachGuarded.init (by decide))

/-- C2 as stated is false: with `N = 2` and `k = 1`, pushing 10, 20, 30 into
the empty 2-byte ring and popping twice yields [30, 20] — not the last two
pushed bytes in push order, [20, 30]. -/
theorem C2_overwrite_cex :
    (popN 2 2 (pushAll 2 [10, 20, 30] Fifo.init)).1 = [30, 20] ∧
      (popN 2 2 (pushAll 2 [10, 20, 30] Fifo.init)).1 ≠ [20, 30] := by
  decide

/-- C2 (amended): pushing `N + k` bytes (`0 < k ≤ N`) into an empty
capacity-`N` ring with no intervening pops leaves `count() = N + k` (not
`N`), and the first `N` pops return the last `N` pushed bytes in rotated
order — the final `k` bytes first, then bytes `k..N-1` of the first
complement; the oldest `k` bytes are overwritten and lost. -/
theorem C2_overwrite_rotation (N k : Nat) (xs ys : List Nat)
    (hdvd : N ∣ U32) (hNU : N + k < U32) (hkN : k ≤ N)
    (hxs : xs.length = N) (hys : ys.length = k) :
    (pushAll N (xs ++ ys) Fifo.init).count = N + k ∧
      (popN N N (pushAll N (xs ++ ys) Fifo.init)).1 =
        ys.map (· % M8) ++ (xs.map (· % M8)).drop k := by
  obtain ⟨ht, hh, hdata⟩ := overwrite_state xs ys hdvd hNU hkN hxs hys
  constructor
  · unfold Fifo.count
    rw [ht, hh]
    unfold U32 at *
    omega
  · rw [popN_vals hdvd N _]
    apply List.ext_getElem
    · simp [hxs, hys]
      omega
    · intro t h1 h2
      have htN : t < N := by simpa using h1
      rw [List.getElem_map, List.getElem_range]
      rw [ht, Nat.zero_add, Nat.mod_eq_of_lt htN]
      rw [hdata t htN]
      by_cases hc : t < k
      · have hty : t < (ys.map (· % M8)).length := by simpa [hys] using hc
        rw [if_pos hc, List.getElem_append_left hty,
          List.getD_eq_getElem _ _ hty]
      · have hty : (ys.map (· % M8)).length ≤ t := by simpa [hys] using hc
        rw [if_neg hc, List.getElem_append_right hty, List.getElem_drop,
          List.getD_eq_getElem _ _ (by simp [hxs]; omega)]
        congr 1
        simp [hys]
        omega

/-- Witness for C2 at `N = 2`, `k = 1`, `xs = [10, 20]`, `ys = [30]`. -/
theorem C2_overwrite_rotation_witness :
    (pushAll 2 ([10, 20] ++ [30]) Fifo.init).count = 2 + 1 ∧
      (popN 2 2 (pushAll 2 ([10, 20] ++ [30]) Fifo.init)).1 =
        [30].map (· % M8) ++ ([10, 20].map (· % M8)).drop 1 :=
  C2_overwrite_rotation 2 1 [10, 20] [30] (by decide) (by decide) (by decide)
    (by decide) (by decide)

/-- C4 as stated is false: on an outbound signal with the ring ALREADY full
(`count() = 32` before the push), the handler increments `out_seq` (9 → 10)
and leaves `out_deferred_req` unchanged (5) — the opposite of the claim,
because the code tests `is_full()` only after the push. -/
theorem C4_outbound_signal_cex :
    fullOutState.out_fifo.is_full CN = true ∧
      outSeqOf (comms_irq_handler 321 fullOutState) = 10 ∧
      (comms_irq_handler 321 fullOutState).out_deferred_req = 5 := by
  decide

/-- C4 (amended): on an outbound signal, with no session the byte is
discarded (state unchanged); with a session the byte is pushed, and if the
push brought the ring to exactly full (`count() = N` AFTER the push)
`out_deferred_req` is incremented with `out_seq` unchanged, while otherwise
— including the case where the ring was already full and the push silently
overwrote an unread byte — `out_seq` is incremented and `out_deferred_req`
is unchanged. -/
theorem C4_outbound_signal (addr : Nat) (hb : addr &&& 256 ≠ 0) :
    (∀ t : Comms, t.reg = none → comms_irq_handler addr t = t) ∧
      ∀ (s : Comms) (r : CommsRegisters), s.reg = some r →
        (comms_irq_handler addr s).out_fifo =
            s.out_fifo.push CN (addr &&& 255) ∧
          ((s.out_fifo.push CN (addr &&& 255)).is_full CN = true →
            (comms_irq_handler addr s).out_deferred_req =
                (s.out_deferred_req + 1) % M8 ∧
              outSeqOf (comms_irq_handler addr s) = r.out_seq) ∧
          ((s.out_fifo.push CN (addr &&& 255)).is_full CN = false →
            (comms_irq_handler addr s).out_deferred_req =
                s.out_deferred_req ∧
              outSeqOf (comms_irq_handler addr s) = (r.out_seq + 1) % U32) := by
  have hguard : (addr &&& 256 != 0) = true := by
    simpa using hb
  constructor
  · intro t htn
    cases t
    simp_all [comms_irq_handler, hguard]
  · intro s r hrs
    simp only [comms_irq_handler, hrs, Option.map_some, hguard, if_true]
    by_cases hfull : (s.out_fifo.push CN (addr &&& 255)).is_full CN = true
    · simp [hfull, outSeqOf]
    · simp only [Bool.not_eq_true] at hfull
      simp [hfull, outSeqOf]

/-- Witness for C4: at address 0x141 (byte 0x41), the no-session case is a
no-op, and pushing into an empty ring (not full after the push) leaves
`out_deferred_req` unchanged. -/
theorem C4_outbound_signal_witness :
    comms_irq_handler 321 Comms.start = Comms.start ∧
      Comms.out_deferred_req
          (comms_irq_handler 321 (comms_begin_session 0 Comms.start)) =
        (comms_begin_session 0 Comms.start).out_deferred_req :=
  ⟨(C4_outbound_signal 321 (by decide)).1 Comms.start rfl,
    (((C4_outbound_signal 321 (by decide)).2 (comms_begin_session 0 Comms.start)
      { magic := [80, 73, 67, 79], active := 1, pending := 0, in_seq := 0,
        out_seq := 0, debug1 := 0, debug2 := 0, in_byte := 0 }
      rfl).2.2 (by decide)).1⟩

/-- C5 as stated is false: even a double `begin_session` leaves
`in_empty_req = 1` while `in_empty_ack = 0`, so the inbound reconciliation
pair is NOT equal. Here the first session also processed two outbound
signals before the second begin, to show the rest is indeed reset. -/
theorem C5_begin_session_cex :
    (comms_begin_session 8192
        (apply_events [321, 322]
          (comms_begin_session 4660 Comms.start))).in_empty_req = 1 ∧
      (comms_begin_session 8192
        (apply_events [321, 322]
          (comms_begin_session 4660 Comms.start))).in_empty_ack = 0 := by
  decide

/-- C5 (amended): after `begin_session` from ANY prior state — in
particular after a second `begin_session` with no `end_session` between —
both rings are empty, `out_deferred_req = out_deferred_ack = 0` and
`in_empty_ack = 0`, but `in_empty_req = 1`: one inbound-empty
reconciliation unit is deliberately left pending so that the first admitted
byte refreshes the mailbox. No ring or counter state leaks from the prior
session. -/
theorem C5_begin_session_reset (s : Comms) (addr : Nat) :
    (comms_begin_session addr s).out_fifo.count = 0 ∧
      (comms_begin_session addr s).in_fifo.count = 0 ∧
      (comms_begin_session addr s).out_deferred_req = 0 ∧
      (comms_begin_session addr s).out_deferred_ack = 0 ∧
      (comms_begin_session addr s).in_empty_ack = 0 ∧
      (comms_begin_session addr s).in_empty_req = 1 :=
  ⟨Fifo.count_clear _, Fifo.count_clear _, rfl, rfl, rfl, rfl⟩

/-- C7: beginning a session at raw address 0x1234 with the 0x400-byte
register block (`static_assert(sizeof(CommsRegisters) == 1024)`) places the
block at `0x1234 & ADDR_MASK & ~0x3FF = 0x1000`, and the block's first four
bytes — the `magic` field — read as ASCII 'P','I','C','O'. -/
theorem C7_session_placement :
    (comms_begin_session 4660 Comms.start).reg_addr = 4096 ∧
      magicOf (comms_begin_session 4660 Comms.start) = [80, 73, 67, 79] := by
  decide

/-- C10: when an inbound-consumed signal (address 0) pops the last pending
byte while a session is active, the handler performs BOTH updates: it writes
`pending = 0` immediately AND increments `in_empty_req`; consequently the
deferral gap is open, and the pump's next admitted byte (push followed by
the `in_empty_ack != in_empty_req` reconciliation step) refreshes the
mailbox: `in_byte` becomes that byte and `in_seq` is incremented. -/
theorem C10_inbound_empty_both (s : Comms) (r : CommsRegisters)
    (hr : s.reg = some r) (hc : s.in_fifo.count = 1)
    (hh : s.in_fifo.head < U32) (ht : s.in_fifo.tail < U32) :
    pendingOf (comms_irq_handler 0 s) = 0 ∧
      (comms_irq_handler 0 s).in_empty_req = (s.in_empty_req + 1) % M8 ∧
      ∀ b, (comms_irq_handler 0 s).in_empty_ack ≠
          (comms_irq_handler 0 s).in_empty_req →
        inByteOf (admit_byte_post b (comms_irq_handler 0 s)) = b % M8 ∧
          inSeqOf (admit_byte_post b (comms_irq_handler 0 s)) =
            (inSeqOf (comms_irq_handler 0 s) + 1) % U32 := by
  have hempty : (s.in_fifo.pop CN).2.is_empty = true := by
    unfold Fifo.is_empty
    rw [Fifo.count_pop_of_pos CN s.in_fifo ht (by omega), hc]
    rfl
  have hcollapse : comms_irq_handler 0 s =
      { s with in_fifo := (s.in_fifo.pop CN).2,
               in_empty_req := (s.in_empty_req + 1) % M8,
               reg := some { r with debug1 := (r.debug1 + 1) % U32,
                                    pending := 0,
                                    debug2 := 0 } } := by
    simp [comms_irq_handler, hr, hempty]
  rw [hcollapse]
  refine ⟨rfl, rfl, ?_⟩
  intro b hne
  simp only at hne
  have hidx : (s.in_fifo.pop CN).2.head % CN = ((s.in_fifo.tail + 1) % U32) % CN := by
    have hcpop := Fifo.count_pop_of_pos CN s.in_fifo ht (by omega)
    rw [hc] at hcpop
    unfold Fifo.count at hcpop
    have hhd : (s.in_fifo.pop CN).2.head = s.in_fifo.head := rfl
    have htl : (s.in_fifo.pop CN).2.tail = (s.in_fifo.tail + 1) % U32 := rfl
    rw [hhd]
    have : s.in_fifo.head = (s.in_fifo.tail + 1) % U32 := by
      rw [hhd, htl] at hcpop
      have h2 : (s.in_fifo.tail + 1) % U32 < U32 := Nat.mod_lt _ U32_pos
      unfold U32 at *
      omega
    rw [this]
  have hpeek : ((s.in_fifo.pop CN).2.push CN b).peek CN = b % M8 := by
    unfold Fifo.push Fifo.peek
    simp only
    have htl : (s.in_fifo.pop CN).2.tail = (s.in_fifo.tail + 1) % U32 := rfl
    rw [htl, ← hidx]
    exact Function.update_same _ _ _
  constructor
  · simp [admit_byte_post, inByteOf, hpeek, hne]
    unfold M8 U32
    omega
  · simp [admit_byte_post, inSeqOf, hpeek, hne]

/-- Witness for C10: after a fresh session admits one byte (72), a mailbox
read leaves the ring empty: `pending` clears, `in_empty_req` goes 1 → 2,
and a subsequently admitted byte 69 lands in the mailbox with `in_seq`
bumped from 1 to 2. -/
theorem C10_inbound_empty_both_witness :
    pendingOf (comms_irq_handler 0
        (stateOf (comms_update [72] [([], false)]
          (comms_begin_session 4660 Comms.start)))) = 0 ∧
      inByteOf (admit_byte_post 69 (comms_irq_handler 0
        (stateOf (comms_update [72] [([], false)]
          (comms_begin_session 4660 Comms.start))))) = 69 % M8 :=
  ⟨(C10_inbound_empty_both _
      { magic := [80, 73, 67, 79], active := 1, pending := 1, in_seq := 1,
        out_seq := 0, debug1 := 0, debug2 := 0, in_byte := 72 }
      rfl (by decide) (by decide) (by decide)).1,
    ((C10_inbound_empty_both _
      { magic := [80, 73, 67, 79], active := 1, pending := 1, in_seq := 1,
        out_seq := 0, debug1 := 0, debug2 := 0, in_byte := 72 }
      rfl (by decide) (by decide) (by decide)).2.2 69 (by decide)).1⟩

/-- C8: from a fresh session, `comms_update` with "HELLO" (no interrupts, no
timeout) succeeds with no sends; five successive mailbox reads by the target
then observe `in_byte`/`in_seq` pairs (72,1) (69,2) (76,3) (76,4) (79,5) —
the bytes 'H','E','L','L','O' in turn under a strictly increasing `in_seq` —
and after the fifth read `pending` is 0. -/
theorem C8_scenario_hello :
    resOf (comms_update [72, 69, 76, 76, 79] (quietSched 5)
        (comms_begin_session 4660 Comms.start)) = true ∧
      sendsOf (comms_update [72, 69, 76, 76, 79] (quietSched 5)
        (comms_begin_session 4660 Comms.start)) = [] ∧
      (mailbox_reads 5 (stateOf (comms_update [72, 69, 76, 76, 79]
        (quietSched 5) (comms_begin_session 4660 Comms.start)))).1 =
        [(72, 1), (69, 2), (76, 3), (76, 4), (79, 5)] ∧
      pendingOf (mailbox_reads 5 (stateOf (comms_update [72, 69, 76, 76, 79]
        (quietSched 5) (comms_begin_session 4660 Comms.start)))).2 = 0 := by
  decide

theorem admit_wait_mem : ∀ (sched : PumpSched) (a : PumpAcc) (fl : Bool)
    (rest : PumpSched) (a1 : PumpAcc),
    admit_wait sched a = some (fl, rest, a1) → ∀ e ∈ rest, e ∈ sched := by
  intro sched
  induction sched with
  | nil => intro a fl rest a1 h; simp [admit_wait] at h
  | cons hd tl ih =>
    obtain ⟨es, expired⟩ := hd
    intro a fl rest a1 h e he
    simp only [admit_wait] at h
    split at h
    · rcases h with ⟨h1, h2, h3⟩
      exact List.mem_cons_of_mem _ he
    · split at h
      · exact List.mem_cons_of_mem _ (ih _ _ _ _ h e he)
      · rcases h with ⟨h1, h2, h3⟩
        exact List.mem_cons_of_mem _ he

theorem admit_wait_expired : ∀ (sched : PumpSched) (a : PumpAcc)
    (rest : PumpSched) (a1 : PumpAcc),
    admit_wait sched a = some (true, rest, a1) → ∃ e ∈ sched, e.2 = true := by
  intro sched
  induction sched with
  | nil => intro a rest a1 h; simp [admit_wait] at h
  | cons hd tl ih =>
    obtain ⟨es, expired⟩ := hd
    intro a rest a1 h
    simp only [admit_wait] at h
    split at h
    · rename_i hexp
      exact ⟨(es, expired), List.mem_cons_self _ _, hexp⟩
    · split at h
      · obtain ⟨e, he, hx⟩ := ih _ _ _ h
        exact ⟨e, List.mem_cons_of_mem _ he, hx⟩
      · simp at h

theorem admit_all_false_expired : ∀ (data : List Nat) (sched : PumpSched)
    (a a1 : PumpAcc),
    admit_all data sched a = some (false, a1) → ∃ e ∈ sched, e.2 = true := by
  intro data
  induction data with
  | nil => intro sched a a1 h; simp [admit_all] at h
  | cons b bs ih =>
    intro sched a a1 h
    simp only [admit_all] at h
    rcases hw : admit_wait sched { a with s := set_pending1 a.s } with _ | ⟨fl, rest, aw⟩
    · rw [hw] at h; simp at h
    · rw [hw] at h
      cases fl with
      | true => exact admit_wait_expired _ _ _ _ hw
      | false =>
        simp only at h
        obtain ⟨e, he, hx⟩ := ih _ _ _ h
        exact ⟨e, admit_wait_mem _ _ _ _ _ hw e he, hx⟩

/-- C1 as stated is false: with a session active, an EMPTY inbound ring
(free capacity throughout — no interrupts fire, so it can never be full) and
a schedule on which the very first timeout check observes the deadline
passed (e.g. `timeout_ms = 0` with any time elapsed), `comms_update`
returns `false`, because the code checks the timeout before checking
fullness. The claim requires `true` whenever the ring has free capacity. -/
theorem C1_update_cex :
    (comms_begin_session 4660 Comms.start).in_fifo.count = 0 ∧
      resOf (comms_update [7] [([], true)]
        (comms_begin_session 4660 Comms.start)) = false := by
  decide

/-- C1 (amended): with no session active, `comms_update` is a no-op
returning `true` immediately with no sends; otherwise it returns `false`
exactly when some timeout check during the admission of a byte observes the
deadline passed (this check precedes the fullness check, so it can fire
even when the ring has free capacity), and returns `true` on every
terminating run whose schedule never reports the deadline passed. -/
theorem C1_update_false_iff_timeout (s : Comms) (data : List Nat)
    (sched : PumpSched) :
    (s.reg = none → comms_update data sched s = some (true, s, [])) ∧
      ∀ (r : Bool) (s1 : Comms) (out : List (List Nat)),
        comms_update data sched s = some (r, s1, out) →
        (r = false → ∃ e ∈ sched, e.2 = true) ∧
          ((∀ e ∈ sched, e.2 = false) → r = true) := by
  constructor
  · intro h
    simp [comms_update, h]
  · intro r s1 out hrun
    rcases hreg : s.reg with _ | rv
    · simp only [comms_update, hreg] at hrun
      rcases hrun with ⟨h1, h2, h3⟩
      exact ⟨fun hf => by simp at hf, fun _ => rfl⟩
    · simp only [comms_update, hreg] at hrun
      rcases hadm : admit_all data sched (pump_drain ⟨s, [], []⟩)
        with _ | ⟨fl, a⟩
      · rw [hadm] at hrun; simp at hrun
      · rw [hadm] at hrun
        cases fl with
        | false =>
          simp only [Option.some.injEq, Prod.mk.injEq] at hrun
          constructor
          · intro _
            exact admit_all_false_expired _ _ _ _ hadm
          · intro hall
            obtain ⟨e, he, hx⟩ := admit_all_false_expired _ _ _ _ hadm
            have := hall e he
            rw [this] at hx
            simp at hx
        | true =>
          simp only at hrun
          split at hrun
          · rcases hrun with ⟨h1, h2, h3⟩
            exact ⟨fun hf => by simp at hf, fun _ => rfl⟩
          · rcases hrun with ⟨h1, h2, h3⟩
            exact ⟨fun hf => by simp at hf, fun _ => rfl⟩

/-- Witness for C1: the no-session no-op at concrete arguments, and a
concrete active-session run with an all-quiet schedule returning `true`. -/
theorem C1_update_false_iff_timeout_witness :
    comms_update [7] [([], false)] Comms.start = some (true, Comms.start, []) ∧
      resOf (comms_update [7] [([], false)]
        (comms_begin_session 4660 Comms.start)) = true :=
  ⟨(C1_update_false_iff_timeout Comms.start [7] [([], false)]).1 rfl,
    ((C1_update_false_iff_timeout (comms_begin_session 4660 Comms.start) [7]
        [([], false)]).2
      (resOf (comms_update [7] [([], false)]
        (comms_begin_session 4660 Comms.start)))
      (stateOf (comms_update [7] [([], false)]
        (comms_begin_session 4660 Comms.start)))
      (sendsOf (comms_update [7] [([], false)]
        (comms_begin_session 4660 Comms.start)))
      rfl).2 (by decide)⟩

theorem drain_loop_sends (N : Nat) : ∀ (n : Nat) (f : Fifo) (buf : List Nat)
    (sends : List (List Nat)),
    (∀ c ∈ sends, c.length = MAX_PKT_PAYLOAD) →
    ∀ c ∈ (drain_loop N n f buf sends).2.2, c.length = MAX_PKT_PAYLOAD := by
  intro n
  induction n with
  | zero => intro f buf sends hs; simpa [drain_loop] using hs
  | succ n ih =>
    intro f buf sends hs c hc
    simp only [drain_loop] at hc
    split at hc
    · rename_i hlen
      refine ih _ _ _ ?_ c hc
      intro d hd
      rcases List.mem_append.1 hd with hd | hd
      · exact hs d hd
      · simp only [List.mem_singleton] at hd
        subst hd
        simpa using hlen
    · exact ih _ _ _ hs c hc

theorem pump_drain_sends (a : PumpAcc)
    (hs : ∀ c ∈ a.sends, c.length = MAX_PKT_PAYLOAD) :
    ∀ c ∈ (pump_drain a).sends, c.length = MAX_PKT_PAYLOAD := by
  intro c hc
  exact drain_loop_sends CN _ _ _ _ hs c hc

theorem admit_wait_sends : ∀ (sched : PumpSched) (a : PumpAcc) (fl : Bool)
    (rest : PumpSched) (a1 : PumpAcc),
    admit_wait sched a = some (fl, rest, a1) →
    (∀ c ∈ a.sends, c.length = MAX_PKT_PAYLOAD) →
    ∀ c ∈ a1.sends, c.length = MAX_PKT_PAYLOAD := by
  intro sched
  induction sched with
  | nil => intro a fl rest a1 h; simp [admit_wait] at h
  | cons hd tl ih =>
    obtain ⟨es, expired⟩ := hd
    intro a fl rest a1 h hs
    have hs1 : ∀ c ∈ (pump_drain { a with s := apply_events es a.s }).sends,
        c.length = MAX_PKT_PAYLOAD :=
      pump_drain_sends _ hs
    simp only [admit_wait] at h
    split at h
    · rcases h with ⟨h1, h2, h3⟩
      exact hs1
    · split at h
      · exact ih _ _ _ _ h hs1
      · rcases h with ⟨h1, h2, h3⟩
        exact hs1

theorem admit_all_sends : ∀ (data : List Nat) (sched : PumpSched)
    (a : PumpAcc) (fl : Bool) (a1 : PumpAcc),
    admit_all data sched a = some (fl, a1) →
    (∀ c ∈ a.sends, c.length = MAX_PKT_PAYLOAD) →
    ∀ c ∈ a1.sends, c.length = MAX_PKT_PAYLOAD := by
  intro data
  induction data with
  | nil =>
    intro sched a fl a1 h hs
    simp only [admit_all, Option.some.injEq, Prod.mk.injEq] at h
    rcases h with ⟨h1, h2⟩
    rw [← h2]
    exact hs
  | cons b bs ih =>
    intro sched a fl a1 h hs
    simp only [admit_all] at h
    rcases hw : admit_wait sched { a with s := set_pending1 a.s }
      with _ | ⟨wfl, rest, aw⟩
    · rw [hw] at h; simp at h
    · rw [hw] at h
      have hsw : ∀ c ∈ aw.sends, c.length = MAX_PKT_PAYLOAD :=
        admit_wait_sends _ _ _ _ _ hw hs
      cases wfl with
      | true =>
        simp only [Option.some.injEq, Prod.mk.injEq] at h
        rcases h with ⟨h1, h2⟩
        rw [← h2]
        exact hsw
      | false =>
        simp only at h
        exact ih _ _ _ _ h hsw

/-- C9: whenever `comms_update` returns `false` (inbound-admission
timeout), every transport packet it issued is a full `MAX_PKT_PAYLOAD`-byte
chunk: the partial chunk accumulated in the local `outbytes` buffer (up to
`MAX_PKT_PAYLOAD - 1` bytes popped from the outbound ring but not yet
flushed) is discarded — the flush of a partial chunk happens only on the
success path, after the admission loop completes. -/
theorem C9_timeout_discards_partial (data : List Nat) (sched : PumpSched)
    (s s1 : Comms) (out : List (List Nat))
    (hrun : comms_update data sched s = some (false, s1, out)) :
    ∀ c ∈ out, c.length = MAX_PKT_PAYLOAD := by
  rcases hreg : s.reg with _ | rv
  · simp [comms_update, hreg] at hrun
  · simp only [comms_update, hreg] at hrun
    rcases hadm : admit_all data sched (pump_drain ⟨s, [], []⟩)
      with _ | ⟨fl, a⟩
    · rw [hadm] at hrun; simp at hrun
    · rw [hadm] at hrun
      have hs0 : ∀ c ∈ (pump_drain ⟨s, [], []⟩).sends,
          c.length = MAX_PKT_PAYLOAD :=
        pump_drain_sends _ (by simp)
      cases fl with
      | false =>
        simp only [Option.some.injEq, Prod.mk.injEq] at hrun
        rcases hrun with ⟨h1, h2, h3⟩
        rw [← h3]
        exact admit_all_sends _ _ _ _ _ hadm hs0
      | true =>
        simp only at hrun
        split at hrun
        · simp at hrun
        · simp at hrun

/-- Witness for C9: in the concrete timed-out run `c9run` the one packet
that was issued before the timeout is a full `MAX_PKT_PAYLOAD`-byte chunk
(the 30 drained bytes); no partial chunk is flushed on the failure path. -/
theorem C9_timeout_discards_partial_witness :
    ((sendsOf c9run).getD 0 []).length = MAX_PKT_PAYLOAD :=
  C9_timeout_discards_partial [7] [(List.replicate 30 321, true)]
    (comms_begin_session 4660 Comms.start) (stateOf c9run) (sendsOf c9run)
    rfl ((sendsOf c9run).getD 0 []) (by decide)
